import Mathlib

/-!
Shallow embedding of `commanders_and_strongholds.py` (class `CommanderGame`):
a two-player Colonel Blotto variant.  Allocation enumeration is modelled after
`fit_army_orders` (`itertools.combinations_with_replacement` over rows of an
identity matrix, each combination collapsed with Python's builtin `sum`),
scoring after `_score_battles`, matrix construction after `fit_game_matrix`
and the pattern grouping after `show_submatrixes`.
-/

namespace CommandersAndStrongholds

/-- A value living in one of the `armies_orders_` arrays.  Python's builtin
`sum` over a tuple of NumPy rows yields a vector for a non-empty tuple, but
the *integer* `0` (the default start value) for the empty tuple, so the array
can hold either integer scalars or integer vectors. -/
inductive PyVal where
  | int (k : Int)
  | vec (v : List Int)
deriving DecidableEq

/-- A Python object passed to the constructor: either an `int` (possibly
negative) or a value that is not an integer at all (float, string, ...). -/
inductive PyObj where
  | int (k : Int)
  | nonInt
deriving DecidableEq

/-- Exceptions that can escape from the body of a fitted operation
(everything except the explicit `RuntimeError` readiness checks):
`TypeError`, the `AssertionError` of `_score_battles`, `IndexError`,
`AttributeError`, `ValueError`. -/
inductive BodyErr where
  | typeErr
  | lenMismatch
  | indexErr
  | attrErr
  | valueErr
deriving DecidableEq

/-- Exceptions escaping `fit_game_matrix` / `show_submatrixes`: the
`RuntimeError` raised by the explicit readiness check, or any error raised
by the body after the check passed. -/
inductive GameErr where
  | notReady
  | body (e : BodyErr)
deriving DecidableEq

/-- The `AssertionError` raised by the two property setters on invalid
configuration values. -/
inductive ConfigErr where
  | invalidConfig
deriving DecidableEq

/-- Python list indexing `l[i]`: `IndexError` when out of range. -/
def expectIdx {α : Type} (l : List α) (i : Nat) : Except BodyErr α :=
  match l.get? i with
  | some x => .ok x
  | none => .error .indexErr

/-- One unfolding step of the `combinations_with_replacement` recurrence:
given the enumerator for choices of size `r` (over every pool), produce the
enumerator for choices of size `r + 1` over the given pool. -/
def cwrStep {α : Type} (prev : List α → List (List α)) : List α → List (List α)
  | [] => []
  | x :: xs => ((prev (x :: xs)).map (fun c => x :: c)) ++ cwrStep prev xs

/-- `combinations_with_replacement`, by recursion on the size. -/
def cwrN {α : Type} : Nat → List α → List (List α)
  | 0, _ => [[]]
  | r + 1, pool => cwrStep (cwrN r) pool

/-- `itertools.combinations_with_replacement(pool, r)`: all length-`r`
multiset choices from `pool`, in the lexicographic order of the generated
index tuples.  It satisfies `cwr pool 0 = [[]]`, `cwr [] (r+1) = []` and
`cwr (x :: xs) (r+1) = ((cwr (x :: xs) r).map (x :: ·)) ++ cwr xs (r+1)`. -/
def cwr {α : Type} (pool : List α) (r : Nat) : List (List α) :=
  cwrN r pool

/-- Entry `j` of a NumPy integer vector (`0` out of range, a case that never
arises for the vectors handled here). -/
def entry (j : Nat) (v : List Int) : Int := v.getD j 0

/-- Row `i` of `np.identity(n, dtype=int)`. -/
def idRow (n i : Nat) : List Int :=
  (List.range n).map (fun j => if j = i then 1 else 0)

/-- All rows of `np.identity(n, dtype=int)`, i.e. `soldier_order`. -/
def identityRows (n : Nat) : List (List Int) :=
  (List.range n).map (idRow n)

/-- Elementwise addition of two NumPy integer vectors. -/
def vadd (u v : List Int) : List Int := List.zipWith (· + ·) u v

/-- Python's builtin `sum(army_order)`: the start value is the integer `0`,
so the empty combination collapses to the scalar `0` while a non-empty one
collapses to the elementwise sum of its rows. -/
def pySum : List (List Int) → PyVal
  | [] => .int 0
  | x :: xs => .vec (xs.foldl vadd x)

/-- The allocation list computed for one army inside `fit_army_orders`:
`np.array([sum(c) for c in combinations_with_replacement(soldier_order, army_size)])`. -/
def armyOrders (armySize n : Nat) : List PyVal :=
  (cwr (identityRows n) armySize).map pySum

/-- The per-stronghold scoring loop of `_score_battles` (over `zip`, which
truncates to the shorter list). -/
def scoreVecs : List Int → List Int → Int
  | x :: xs, y :: ys =>
      (if y < x then y + 1 else if x = y then 0 else -(x + 1)) + scoreVecs xs ys
  | _, _ => 0

/-- `CommanderGame._score_battles`: `TypeError` when an operand is a scalar
(`len` of an integer), `AssertionError` when the lengths disagree with each
other or with the configured stronghold count, otherwise the summed score. -/
def score_battles (n : Nat) : PyVal → PyVal → Except BodyErr Int
  | .vec a, .vec b =>
      if a.length = b.length ∧ b.length = n then .ok (scoreVecs a b)
      else .error .lenMismatch
  | _, _ => .error .typeErr

/-- One row of the game matrix: scores of a fixed row order against every
column order, in column order (first failure aborts). -/
def buildRow (n : Nat) (ro : PyVal) : List PyVal → Except BodyErr (List Int)
  | [] => .ok []
  | co :: cos =>
      match score_battles n ro co, buildRow n ro cos with
      | .error e, _ => .error e
      | .ok _, .error e => .error e
      | .ok v, .ok rest => .ok (v :: rest)

/-- The nested loops of `fit_game_matrix`: one row per element of the first
allocation list. -/
def buildRows (n : Nat) (s2 : List PyVal) : List PyVal → Except BodyErr (List (List Int))
  | [] => .ok []
  | ro :: ros =>
      match buildRow n ro s2, buildRows n s2 ros with
      | .error e, _ => .error e
      | .ok _, .error e => .error e
      | .ok row, .ok rest => .ok (row :: rest)

/-- The body of `fit_game_matrix` after the readiness check: it reads
`armies_orders_[0]` and `armies_orders_[1]` (both are also read by the
DataFrame labelling) and fills the matrix row by row. -/
def buildFromOrders (n : Nat) (os : List (List PyVal)) : Except BodyErr (List (List Int)) :=
  match expectIdx os 0 with
  | .error e => .error e
  | .ok s1 =>
    match expectIdx os 1 with
    | .error e => .error e
    | .ok s2 => buildRows n s2 s1

/-- The `CommanderGame` object.  The two optional fields model the fitted
attributes `armies_orders_` and `game_matrix_`, absent until the
corresponding `fit_*` method has run. -/
structure CommanderGame where
  armies_sizes : List Nat
  n_strongholds : Nat
  armies_orders : Option (List (List PyVal))
  game_matrix : Option (List (List Int))
deriving DecidableEq

/-- The validity check performed by both property setters:
`isinstance(value, int) and value >= 0`. -/
def isNatInt : PyObj → Bool
  | .int k => 0 ≤ k
  | .nonInt => false

/-- A validated configuration value, read back as a natural number. -/
def pyToNat : PyObj → Nat
  | .int k => k.toNat
  | .nonInt => 0

/-- `CommanderGame.__init__`: runs the `armies_sizes` setter (checking every
element of the sequence, of whatever length) and then the `n_strongholds`
setter (which accepts any `int` `value >= 0`, including `0`). -/
def mkCommanderGame (armies_sizes : List PyObj) (n_strongholds : PyObj) :
    Except ConfigErr CommanderGame :=
  if armies_sizes.all isNatInt then
    if isNatInt n_strongholds then
      .ok ⟨armies_sizes.map pyToNat, pyToNat n_strongholds, none, none⟩
    else .error .invalidConfig
  else .error .invalidConfig

/-- `CommanderGame.fit_army_orders`: recomputes `armies_orders_`, one
allocation list per configured army size; `game_matrix_` is left as is. -/
def CommanderGame.fit_army_orders (g : CommanderGame) : CommanderGame :=
  ⟨g.armies_sizes, g.n_strongholds,
    some (g.armies_sizes.map (fun a => armyOrders a g.n_strongholds)),
    g.game_matrix⟩

/-- `CommanderGame.fit_game_matrix`: `RuntimeError` when `armies_orders_`
is absent, otherwise the matrix body runs and its result is stored. -/
def CommanderGame.fit_game_matrix (g : CommanderGame) : Except GameErr CommanderGame :=
  match g.armies_orders with
  | none => .error .notReady
  | some os =>
      match buildFromOrders g.n_strongholds os with
      | .error e => .error (.body e)
      | .ok M => .ok ⟨g.armies_sizes, g.n_strongholds, g.armies_orders, some M⟩

/-- The unit-count pattern of an allocation vector: the multiset of its
entries, i.e. the content of its `collections.Counter`. -/
def patternOf (v : List Int) : Multiset Int := Multiset.ofList v

/-- `collections.Counter(army_order)`: the multiset of entries of a vector;
`TypeError` on an integer scalar (not iterable). -/
def pyCounter : PyVal → Except BodyErr (Multiset Int)
  | .vec v => .ok (patternOf v)
  | .int _ => .error .typeErr

/-- `[Counter(u) for u in l]`, left to right, first failure aborts. -/
def countersOf : List PyVal → Except BodyErr (List (Multiset Int))
  | [] => .ok []
  | x :: xs =>
      match pyCounter x, countersOf xs with
      | .error e, _ => .error e
      | .ok _, .error e => .error e
      | .ok k, .ok ks => .ok (k :: ks)

/-- The deduplication loop of `show_submatrixes`: an order is appended to
`unique_orders` when its `Counter` differs from the `Counter` of every
order already kept. -/
def uniqueOrdersAux (acc : List PyVal) : List PyVal → Except BodyErr (List PyVal)
  | [] => .ok acc
  | x :: xs =>
      match countersOf acc with
      | .error e => .error e
      | .ok uniq =>
          match pyCounter x with
          | .error e => .error e
          | .ok k =>
              if k ∈ uniq then uniqueOrdersAux acc xs
              else uniqueOrdersAux (acc ++ [x]) xs

/-- The `unique_orders` list computed for one allocation list when
`show_submatrixes` is called without an argument. -/
def uniqueOrders (orders : List PyVal) : Except BodyErr (List PyVal) :=
  uniqueOrdersAux [] orders

/-- The same deduplication loop, specialised to plain vectors (on which
`Counter` never fails). -/
def uniqueVecsAux (acc : List (List Int)) : List (List Int) → List (List Int)
  | [] => acc
  | v :: vs =>
      if patternOf v ∈ acc.map patternOf then uniqueVecsAux acc vs
      else uniqueVecsAux (acc ++ [v]) vs

/-- The default `orders_lists`: one deduplicated list per entry of
`armies_orders_`. -/
def defaultOrdersLists : List (List PyVal) → Except BodyErr (List (List PyVal))
  | [] => .ok []
  | o :: os =>
      match uniqueOrders o, defaultOrdersLists os with
      | .error e, _ => .error e
      | .ok _, .error e => .error e
      | .ok u, .ok rest => .ok (u :: rest)

/-- `pattern_lists`: for each index of `orders_lists`, the `Counter`s of all
entries of `armies_orders_[idx]`. -/
def patternListsOf (os : List (List PyVal)) : List Nat → Except BodyErr (List (List (Multiset Int)))
  | [] => .ok []
  | i :: is =>
      match expectIdx os i with
      | .error e => .error e
      | .ok oi =>
          match countersOf oi, patternListsOf os is with
          | .error e, _ => .error e
          | .ok _, .error e => .error e
          | .ok pl, .ok rest => .ok (pl :: rest)

/-- `itertools.product(*lists)`: all tuples taking one element per list,
rightmost position varying fastest. -/
def listProduct {α : Type} : List (List α) → List (List α)
  | [] => [[]]
  | l :: ls => (l.map (fun x => (listProduct ls).map (fun t => x :: t))).flatten

/-- Selection by a boolean mask, as in `iloc` with a boolean array (the mask
is aligned with the list positionally). -/
def maskFilter {α : Type} (mask : List Bool) (l : List α) : List α :=
  ((l.zip mask).filter (fun p => p.2)).map (fun p => p.1)

/-- The body of the product loop of `show_submatrixes`: a pattern pair is
unpacked from a tuple (`ValueError` unless it has exactly two components),
the rows and columns of the game matrix whose pattern equals the respective
component are selected. -/
def submatrixFor (M : List (List Int)) (patternLists : List (List (Multiset Int))) :
    List PyVal → Except BodyErr (Multiset Int × Multiset Int × List (List Int))
  | [ro, co] =>
      match expectIdx patternLists 0 with
      | .error e => .error e
      | .ok p0 =>
        match pyCounter ro with
        | .error e => .error e
        | .ok kr =>
          match expectIdx patternLists 1 with
          | .error e => .error e
          | .ok p1 =>
            match pyCounter co with
            | .error e => .error e
            | .ok kc =>
                let rmask := p0.map (fun k => decide (k = kr))
                let cmask := p1.map (fun k => decide (k = kc))
                .ok (kr, kc, (maskFilter rmask M).map (fun row => maskFilter cmask row))
  | _ => .error .valueErr

/-- The product loop itself, in row-major order. -/
def submatrices (M : List (List Int)) (patternLists : List (List (Multiset Int))) :
    List (List PyVal) → Except BodyErr (List (Multiset Int × Multiset Int × List (List Int)))
  | [] => .ok []
  | t :: ts =>
      match submatrixFor M patternLists t, submatrices M patternLists ts with
      | .error e, _ => .error e
      | .ok _, .error e => .error e
      | .ok s, .ok rest => .ok (s :: rest)

/-- Everything `show_submatrixes` does after its readiness check:
`AttributeError` when `armies_orders_` is absent, then the orders lists are
taken from the argument or computed by deduplication, the pattern lists are
built, and the sub-matrix of every pattern pair is extracted. -/
def showBody (osOpt : Option (List (List PyVal))) (M : List (List Int))
    (arg : Option (List PyVal × List PyVal)) :
    Except BodyErr (List (Multiset Int × Multiset Int × List (List Int))) :=
  match osOpt with
  | none => .error .attrErr
  | some os =>
      match (match arg with
             | some pr => Except.ok [pr.1, pr.2]
             | none => defaultOrdersLists os) with
      | .error e => .error e
      | .ok ordersLists =>
          match patternListsOf os (List.range ordersLists.length) with
          | .error e => .error e
          | .ok pls => submatrices M pls (listProduct ordersLists)

/-- `CommanderGame.show_submatrixes`: `RuntimeError` when `game_matrix_` is
absent, otherwise the body runs (any exception it raises is not the
readiness `RuntimeError`). -/
def CommanderGame.show_submatrixes (g : CommanderGame)
    (arg : Option (List PyVal × List PyVal)) :
    Except GameErr (List (Multiset Int × Multiset Int × List (List Int))) :=
  match g.game_matrix with
  | none => .error .notReady
  | some M =>
      match showBody g.armies_orders M arg with
      | .error e => .error (.body e)
      | .ok r => .ok r

/-- Specification-side description of the pattern deduplication (the
`patterns_of` contract): keep an allocation exactly when no earlier
allocation has the same multiset of entries, i.e. one representative per
distinct pattern, in first-occurrence order. -/
def specUniquePatterns : List (List Int) → List (List Int)
  | [] => []
  | v :: vs =>
      v :: specUniquePatterns (vs.filter (fun u => decide (patternOf u ≠ patternOf v)))
termination_by l => l.length
decreasing_by
  simp only [List.length_cons]
  exact Nat.lt_succ_of_le (List.length_filter_le _ _)

/-! ### Equations of the enumerator -/

theorem cwr_zero {α : Type} (pool : List α) : cwr pool 0 = [[]] := rfl

theorem cwr_nil_succ {α : Type} (r : Nat) : cwr ([] : List α) (r + 1) = [] := rfl

theorem cwr_cons_succ {α : Type} (x : α) (xs : List α) (r : Nat) :
    cwr (x :: xs) (r + 1) =
      ((cwr (x :: xs) r).map (fun c => x :: c)) ++ cwr xs (r + 1) := rfl

/-! ### The battle scorer -/

theorem scoreVecs_swap : ∀ (x y : List Int), scoreVecs y x = -scoreVecs x y := by
  intro x
  induction x with
  | nil => intro y; cases y <;> simp [scoreVecs]
  | cons a xs ih =>
    intro y
    cases y with
    | nil => simp [scoreVecs]
    | cons b ys =>
      simp only [scoreVecs, ih ys]
      split_ifs <;> omega

theorem scoreVecs_self : ∀ x : List Int, scoreVecs x x = 0 := by
  intro x
  induction x with
  | nil => simp [scoreVecs]
  | cons a xs ih => simp [scoreVecs, ih]

/-- C2: for allocations `a`, `b` of the configured length, the battle scorer
succeeds with `score(a,b) = -score(b,a)`, and `score(a,a) = 0`. -/
theorem score_battles_antisym (n : Nat) (a b : List Int)
    (ha : a.length = n) (hb : b.length = n) :
    (∃ s, score_battles n (.vec a) (.vec b) = .ok s ∧
          score_battles n (.vec b) (.vec a) = .ok (-s)) ∧
    score_battles n (.vec a) (.vec a) = .ok 0 := by
  refine ⟨⟨scoreVecs a b, ?_, ?_⟩, ?_⟩
  · simp [score_battles, ha, hb]
  · rw [score_battles, if_pos ⟨hb.trans ha.symm, ha⟩, scoreVecs_swap a b]
  · simp [score_battles, ha, scoreVecs_self]

theorem score_battles_antisym_witness :
    ([4, 0, 0] : List Int).length = 3 ∧ ([2, 1, 0] : List Int).length = 3 ∧
    ((∃ s, score_battles 3 (.vec [4, 0, 0]) (.vec [2, 1, 0]) = .ok s ∧
           score_battles 3 (.vec [2, 1, 0]) (.vec [4, 0, 0]) = .ok (-s)) ∧
     score_battles 3 (.vec [4, 0, 0]) (.vec [4, 0, 0]) = .ok 0) :=
  ⟨by decide, by decide,
    score_battles_antisym 3 [4, 0, 0] [2, 1, 0] (by decide) (by decide)⟩

/-- C4: at `army_size = 0` the enumerator produces a single element, but it
is the integer scalar `0` (Python's `sum(())`), not the all-zero vector of
length `n_strongholds`; the code diverges here from the documented
behaviour. -/
theorem armyOrders_zero_is_scalar : armyOrders 0 3 = [PyVal.int 0] := rfl

/-! ### Construction and the readiness state machine -/

/-- C5 counterexample: the `n_strongholds` setter asserts `value >= 0`, so
construction with `n_strongholds == 0` succeeds, contrary to the claim that
it fails. -/
theorem mk_accepts_zero_strongholds :
    mkCommanderGame [PyObj.int 4, PyObj.int 3] (PyObj.int 0) =
      .ok ⟨[4, 3], 0, none, none⟩ := rfl

/-- C5 amended: construction succeeds iff every army size is a non-negative
integer and `n_strongholds` is a non-negative integer (zero included);
otherwise it fails with the configuration assertion. -/
theorem mk_ok_iff (sizes : List PyObj) (nv : PyObj) :
    (∃ g, mkCommanderGame sizes nv = .ok g) ↔
      ((∀ v ∈ sizes, isNatInt v = true) ∧ isNatInt nv = true) := by
  unfold mkCommanderGame
  split_ifs with h1 h2
  · exact iff_of_true ⟨_, rfl⟩ ⟨List.all_eq_true.mp h1, h2⟩
  · refine iff_of_false ?_ (fun h => h2 h.2)
    rintro ⟨g, hg⟩
    simp at hg
  · refine iff_of_false ?_ (fun h => h1 (List.all_eq_true.mpr h.1))
    rintro ⟨g, hg⟩
    simp at hg

/-- C6: before `fit_army_orders` has run, `fit_game_matrix` fails with the
readiness `RuntimeError`; before `fit_game_matrix` has run,
`show_submatrixes` fails with the readiness `RuntimeError`; once the
prerequisite attribute exists, neither operation raises that signal. -/
theorem readiness_checks (g : CommanderGame) :
    (g.armies_orders = none → g.fit_game_matrix = .error .notReady) ∧
    (∀ arg, g.game_matrix = none → g.show_submatrixes arg = .error .notReady) ∧
    (∀ os, g.armies_orders = some os → g.fit_game_matrix ≠ .error .notReady) ∧
    (∀ arg M, g.game_matrix = some M → g.show_submatrixes arg ≠ .error .notReady) := by
  refine ⟨?_, ?_, ?_, ?_⟩
  · intro h
    simp [CommanderGame.fit_game_matrix, h]
  · intro arg h
    simp [CommanderGame.show_submatrixes, h]
  · intro os h hcon
    simp only [CommanderGame.fit_game_matrix, h] at hcon
    cases hb : buildFromOrders g.n_strongholds os with
    | error e => rw [hb] at hcon; simp at hcon
    | ok M => rw [hb] at hcon; simp at hcon
  · intro arg M h hcon
    simp only [CommanderGame.show_submatrixes, h] at hcon
    cases hb : showBody g.armies_orders M arg with
    | error e => rw [hb] at hcon; simp at hcon
    | ok r => rw [hb] at hcon; simp at hcon

theorem readiness_checks_witness :
    ((⟨[1, 1], 1, none, none⟩ : CommanderGame).fit_game_matrix = .error .notReady) ∧
    ((⟨[1, 1], 1, none, none⟩ : CommanderGame).show_submatrixes none = .error .notReady) ∧
    ((⟨[1, 1], 1, some [[.vec [1]], [.vec [1]]], none⟩ : CommanderGame).fit_game_matrix ≠
      .error .notReady) ∧
    ((⟨[1, 1], 1, some [[.vec [1]], [.vec [1]]], some [[0]]⟩ : CommanderGame).show_submatrixes
        none ≠ .error .notReady) :=
  ⟨(readiness_checks _).1 rfl,
   (readiness_checks _).2.1 none rfl,
   (readiness_checks _).2.2.1 _ rfl,
   (readiness_checks _).2.2.2 none [[0]] rfl⟩

/-- C10: the length of `armies_sizes` is never checked — construction
succeeds for any sequence of non-negative integers, `fit_army_orders`
produces one allocation list per entry, and the matrix body depends only on
the first two allocation lists. -/
theorem armies_sizes_any_length (sizes : List PyObj) (nv : PyObj)
    (hs : ∀ v ∈ sizes, isNatInt v = true) (hn : isNatInt nv = true) :
    (mkCommanderGame sizes nv =
      .ok ⟨sizes.map pyToNat, pyToNat nv, none, none⟩) ∧
    (∀ g : CommanderGame,
      g.fit_army_orders.armies_orders =
        some (g.armies_sizes.map (fun a => armyOrders a g.n_strongholds)) ∧
      (g.armies_sizes.map (fun a => armyOrders a g.n_strongholds)).length =
        g.armies_sizes.length) ∧
    (∀ (n : Nat) (s1 s2 : List PyVal) (rest rest' : List (List PyVal)),
      buildFromOrders n (s1 :: s2 :: rest) = buildFromOrders n (s1 :: s2 :: rest')) := by
  refine ⟨?_, fun g => ⟨rfl, List.length_map _ _⟩, fun n s1 s2 rest rest' => rfl⟩
  unfold mkCommanderGame
  rw [if_pos (List.all_eq_true.mpr hs), if_pos hn]

theorem armies_sizes_any_length_witness :
    (∀ v ∈ [PyObj.int 1, PyObj.int 2, PyObj.int 3], isNatInt v = true) ∧
    isNatInt (PyObj.int 2) = true ∧
    ((mkCommanderGame [PyObj.int 1, PyObj.int 2, PyObj.int 3] (PyObj.int 2) =
       .ok ⟨[1, 2, 3], 2, none, none⟩) ∧
     (∀ g : CommanderGame,
       g.fit_army_orders.armies_orders =
         some (g.armies_sizes.map (fun a => armyOrders a g.n_strongholds)) ∧
       (g.armies_sizes.map (fun a => armyOrders a g.n_strongholds)).length =
         g.armies_sizes.length) ∧
     (∀ (n : Nat) (s1 s2 : List PyVal) (rest rest' : List (List PyVal)),
       buildFromOrders n (s1 :: s2 :: rest) = buildFromOrders n (s1 :: s2 :: rest'))) :=
  ⟨by decide, rfl,
    armies_sizes_any_length [PyObj.int 1, PyObj.int 2, PyObj.int 3] (PyObj.int 2)
      (by decide) rfl⟩

/-! ### The matrix builder -/

theorem buildRow_ok {n : Nat} {ro : PyVal} {s2 : List PyVal} {row : List Int}
    (h : buildRow n ro s2 = .ok row) :
    row.length = s2.length ∧
    ∀ c v, row.get? c = some v →
      ∃ y, s2.get? c = some y ∧ score_battles n ro y = .ok v := by
  induction s2 generalizing row with
  | nil =>
    simp only [buildRow, Except.ok.injEq] at h
    subst h
    exact ⟨rfl, by intro c v hv; simp at hv⟩
  | cons co cos ih =>
    rw [buildRow] at h
    cases hs : score_battles n ro co with
    | error e => rw [hs] at h; exact Except.noConfusion h
    | ok v0 =>
      rw [hs] at h
      cases hr : buildRow n ro cos with
      | error e => rw [hr] at h; exact Except.noConfusion h
      | ok rest =>
        rw [hr] at h
        obtain rfl : v0 :: rest = row := Except.ok.inj h
        obtain ⟨hlen, hget⟩ := ih hr
        refine ⟨by simp [hlen], ?_⟩
        intro c v hv
        cases c with
        | zero =>
          obtain rfl : v0 = v := Option.some.inj hv
          exact ⟨co, rfl, hs⟩
        | succ c =>
          exact hget c v hv

theorem buildRows_ok {n : Nat} {s2 s1 : List PyVal} {M : List (List Int)}
    (h : buildRows n s2 s1 = .ok M) :
    M.length = s1.length ∧
    ∀ r row, M.get? r = some row →
      ∃ x, s1.get? r = some x ∧ buildRow n x s2 = .ok row := by
  induction s1 generalizing M with
  | nil =>
    simp only [buildRows, Except.ok.injEq] at h
    subst h
    exact ⟨rfl, by intro r row hr; simp at hr⟩
  | cons ro ros ih =>
    rw [buildRows] at h
    cases hrow : buildRow n ro s2 with
    | error e => rw [hrow] at h; exact Except.noConfusion h
    | ok row0 =>
      rw [hrow] at h
      cases hrest : buildRows n s2 ros with
      | error e => rw [hrest] at h; exact Except.noConfusion h
      | ok rest =>
        rw [hrest] at h
        obtain rfl : row0 :: rest = M := Except.ok.inj h
        obtain ⟨hlen, hget⟩ := ih hrest
        refine ⟨by simp [hlen], ?_⟩
        intro r row hr
        cases r with
        | zero =>
          obtain rfl : row0 = row := Option.some.inj hr
          exact ⟨ro, rfl, hrow⟩
        | succ r =>
          exact hget r row hr

theorem fit_game_matrix_ok_cells (g g' : CommanderGame) (os : List (List PyVal))
    (s1 s2 : List PyVal)
    (hos : g.armies_orders = some os)
    (h0 : os.get? 0 = some s1) (h1 : os.get? 1 = some s2)
    (hfit : g.fit_game_matrix = .ok g') :
    ∃ M, g'.game_matrix = some M ∧
      M.length = s1.length ∧
      (∀ row ∈ M, row.length = s2.length) ∧
      (∀ r c row v, M.get? r = some row → row.get? c = some v →
        ∃ x y, s1.get? r = some x ∧ s2.get? c = some y ∧
          score_battles g.n_strongholds x y = .ok v) := by
  simp only [CommanderGame.fit_game_matrix, hos] at hfit
  cases hb : buildFromOrders g.n_strongholds os with
  | error e => rw [hb] at hfit; simp at hfit
  | ok M =>
    simp only [hb] at hfit
    obtain rfl : (⟨g.armies_sizes, g.n_strongholds, some os, some M⟩ :
        CommanderGame) = g' := Except.ok.inj hfit
    simp only [buildFromOrders, expectIdx, h0, h1] at hb
    obtain ⟨hM, hrows⟩ := buildRows_ok hb
    refine ⟨M, rfl, hM, ?_, ?_⟩
    · intro row hrow
      obtain ⟨r, hr⟩ := List.get?_of_mem hrow
      obtain ⟨x, _, hbr⟩ := hrows r row hr
      exact (buildRow_ok hbr).1
    · intro r c row v hr hc
      obtain ⟨x, hx, hbr⟩ := hrows r row hr
      obtain ⟨y, hy, hsc⟩ := (buildRow_ok hbr).2 c v hc
      exact ⟨x, y, hx, hy, hsc⟩

/-- C3: when `fit_game_matrix` succeeds after `fit_army_orders`, the stored
matrix has one row per element of the first allocation list, one column per
element of the second, and cell `(r, c)` is the battle score of
`set_1[r]` against `set_2[c]`. -/
theorem fit_game_matrix_spec (g g' : CommanderGame) (os : List (List PyVal))
    (s1 s2 : List PyVal)
    (hos : g.armies_orders = some os)
    (h0 : os.get? 0 = some s1) (h1 : os.get? 1 = some s2)
    (hfit : g.fit_game_matrix = .ok g') :
    ∃ M, g'.game_matrix = some M ∧
      M.length = s1.length ∧
      (∀ row ∈ M, row.length = s2.length) ∧
      (∀ r c row v, M.get? r = some row → row.get? c = some v →
        ∃ x y, s1.get? r = some x ∧ s2.get? c = some y ∧
          score_battles g.n_strongholds x y = .ok v) :=
  fit_game_matrix_ok_cells g g' os s1 s2 hos h0 h1 hfit

/-! ### Counting and soundness of the enumerator -/

theorem cwr_length {α : Type} :
    ∀ (pool : List α) (r : Nat), (cwr pool r).length = Nat.multichoose pool.length r := by
  intro pool
  induction pool with
  | nil =>
    intro r
    cases r with
    | zero => simp [cwr_zero, Nat.multichoose_zero_right]
    | succ r => simp [cwr_nil_succ, Nat.multichoose_zero_succ]
  | cons x xs ih =>
    intro r
    induction r with
    | zero => simp [cwr_zero, Nat.multichoose_zero_right]
    | succ r ihr =>
      rw [cwr_cons_succ, List.length_append, List.length_map, ihr, ih (r + 1)]
      simp only [List.length_cons, Nat.multichoose_succ_succ]
      omega

theorem cwr_mem {α : Type} :
    ∀ (pool : List α) (r : Nat) (c : List α),
      c ∈ cwr pool r → c.length = r ∧ ∀ x ∈ c, x ∈ pool := by
  intro pool
  induction pool with
  | nil =>
    intro r c hc
    cases r with
    | zero =>
      rw [cwr_zero, List.mem_singleton] at hc
      subst hc
      simp
    | succ r => rw [cwr_nil_succ] at hc; simp at hc
  | cons a xs ih =>
    intro r
    induction r with
    | zero =>
      intro c hc
      rw [cwr_zero, List.mem_singleton] at hc
      subst hc
      simp
    | succ r ihr =>
      intro c hc
      rw [cwr_cons_succ, List.mem_append] at hc
      rcases hc with h | h
      · obtain ⟨c', hc', rfl⟩ := List.mem_map.mp h
        obtain ⟨hlen, hmem⟩ := ihr c' hc'
        refine ⟨by simp [hlen], ?_⟩
        intro x hx
        rcases List.mem_cons.mp hx with rfl | hx
        · exact List.mem_cons_self _ _
        · exact hmem x hx
      · obtain ⟨hlen, hmem⟩ := ih (r + 1) c h
        exact ⟨hlen, fun x hx => List.mem_cons_of_mem a (hmem x hx)⟩

theorem cwr_map_multiset_nodup {α : Type} [DecidableEq α] :
    ∀ (pool : List α), pool.Nodup → ∀ (r : Nat),
      ((cwr pool r).map Multiset.ofList).Nodup := by
  intro pool
  induction pool with
  | nil =>
    intro _ r
    cases r with
    | zero => simp [cwr_zero]
    | succ r => simp [cwr_nil_succ]
  | cons a xs ih =>
    intro hnd r
    induction r with
    | zero => simp [cwr_zero]
    | succ r ihr =>
      rw [cwr_cons_succ, List.map_append, List.map_map]
      have hcomp : (Multiset.ofList ∘ fun c => a :: c) =
          fun c => a ::ₘ Multiset.ofList c := rfl
      rw [hcomp]
      have hpart1 : ((cwr (a :: xs) r).map fun c => a ::ₘ Multiset.ofList c).Nodup := by
        have hsplit : ((cwr (a :: xs) r).map fun c => a ::ₘ Multiset.ofList c) =
            (((cwr (a :: xs) r).map Multiset.ofList).map fun m => a ::ₘ m) := by
          rw [List.map_map]; rfl
        rw [hsplit]
        refine ihr.map ?_
        intro s t hst
        exact (Multiset.cons_inj_right a).mp hst
      refine hpart1.append (ih hnd.of_cons (r + 1)) ?_
      intro m hm1 hm2
      obtain ⟨c1, _, rfl⟩ := List.mem_map.mp hm1
      obtain ⟨c2, hc2, hce⟩ := List.mem_map.mp hm2
      have ha_in : a ∈ Multiset.ofList c2 := by
        rw [hce]
        exact Multiset.mem_cons_self _ _
      have ha_list : a ∈ c2 := Multiset.mem_coe.mp ha_in
      have : a ∈ xs := (cwr_mem xs (r + 1) c2 hc2).2 a ha_list
      exact (List.nodup_cons.mp hnd).1 this

theorem cwr_nodup {α : Type} [DecidableEq α] {pool : List α} (h : pool.Nodup) (r : Nat) :
    (cwr pool r).Nodup :=
  (cwr_map_multiset_nodup pool h r).of_map

theorem identityRows_length (n : Nat) : (identityRows n).length = n := by
  simp [identityRows]

theorem idRow_length (n i : Nat) : (idRow n i).length = n := by
  simp [idRow]

theorem entry_idRow {n i j : Nat} (hj : j < n) :
    entry j (idRow n i) = if j = i then 1 else 0 := by
  have hlen : j < (idRow n i).length := by rw [idRow_length]; exact hj
  rw [entry, List.getD_eq_getElem _ _ hlen]
  simp [idRow]

theorem idRow_sum_ite : ∀ (n i : Nat), (idRow n i).sum = if i < n then (1 : Int) else 0 := by
  intro n
  induction n with
  | zero => intro i; simp [idRow]
  | succ n ih =>
    intro i
    rw [idRow, List.range_succ, List.map_append, List.sum_append]
    rw [show ((List.range n).map fun j => if j = i then (1 : Int) else 0) = idRow n i from rfl]
    rw [ih i]
    simp only [List.map_cons, List.map_nil, List.sum_cons, List.sum_nil]
    split_ifs <;> omega

theorem idRow_sum {n i : Nat} (hi : i < n) : (idRow n i).sum = 1 := by
  rw [idRow_sum_ite, if_pos hi]

theorem idRow_nonneg {n i : Nat} : ∀ x ∈ idRow n i, 0 ≤ x := by
  intro x hx
  obtain ⟨j, _, rfl⟩ := List.mem_map.mp hx
  split_ifs <;> omega

theorem idRow_inj {n i j : Nat} (hi : i < n) (_hj : j < n) (h : idRow n i = idRow n j) :
    i = j := by
  have hthis := congrArg (entry i) h
  rw [entry_idRow hi, entry_idRow hi, if_pos rfl] at hthis
  by_contra hne
  rw [if_neg hne] at hthis
  exact one_ne_zero hthis

theorem mem_identityRows {n : Nat} {v : List Int} :
    v ∈ identityRows n ↔ ∃ i, i < n ∧ v = idRow n i := by
  simp only [identityRows, List.mem_map, List.mem_range]
  exact ⟨fun ⟨i, hi, he⟩ => ⟨i, hi, he.symm⟩, fun ⟨i, hi, he⟩ => ⟨i, hi, he.symm⟩⟩

theorem vadd_length {u v : List Int} (h : u.length = v.length) :
    (vadd u v).length = u.length := by
  simp [vadd, h]

theorem entry_vadd : ∀ (u v : List Int), u.length = v.length →
    ∀ j, entry j (vadd u v) = entry j u + entry j v := by
  intro u
  induction u with
  | nil =>
    intro v hv j
    obtain rfl : v = [] := List.eq_nil_of_length_eq_zero hv.symm
    simp [vadd, entry]
  | cons x xs ih =>
    intro v hv j
    cases v with
    | nil => simp at hv
    | cons y ys =>
      cases j with
      | zero => simp [vadd, entry]
      | succ j =>
        have hlen : xs.length = ys.length := by
          simpa using hv
        simpa [vadd, entry, List.getD_cons_succ] using ih ys hlen j

theorem vadd_sum : ∀ (u v : List Int), u.length = v.length →
    (vadd u v).sum = u.sum + v.sum := by
  intro u
  induction u with
  | nil =>
    intro v hv
    obtain rfl : v = [] := List.eq_nil_of_length_eq_zero hv.symm
    simp [vadd]
  | cons x xs ih =>
    intro v hv
    cases v with
    | nil => simp at hv
    | cons y ys =>
      have hlen : xs.length = ys.length := by simpa using hv
      simp only [vadd, List.zipWith_cons_cons, List.sum_cons]
      rw [show List.zipWith (· + ·) xs ys = vadd xs ys from rfl, ih ys hlen]
      ring

theorem foldl_vadd_length : ∀ (xs : List (List Int)) (x : List Int),
    (∀ v ∈ xs, v.length = x.length) → (xs.foldl vadd x).length = x.length := by
  intro xs
  induction xs with
  | nil => intro x _; rfl
  | cons y ys ih =>
    intro x h
    rw [List.foldl_cons]
    have hxy : (vadd x y).length = x.length :=
      vadd_length (h y (List.mem_cons_self _ _)).symm
    rw [ih (vadd x y) (fun v hv => (h v (List.mem_cons_of_mem _ hv)).trans hxy.symm), hxy]

theorem foldl_vadd_entry (j : Nat) : ∀ (xs : List (List Int)) (x : List Int),
    (∀ v ∈ xs, v.length = x.length) →
    entry j (xs.foldl vadd x) = entry j x + (xs.map (entry j)).sum := by
  intro xs
  induction xs with
  | nil => intro x _; simp
  | cons y ys ih =>
    intro x h
    rw [List.foldl_cons]
    have hxy : (vadd x y).length = x.length :=
      vadd_length (h y (List.mem_cons_self _ _)).symm
    rw [ih (vadd x y) (fun v hv => (h v (List.mem_cons_of_mem _ hv)).trans hxy.symm)]
    rw [entry_vadd x y (h y (List.mem_cons_self _ _)).symm j]
    simp only [List.map_cons, List.sum_cons]
    ring

theorem foldl_vadd_sum : ∀ (xs : List (List Int)) (x : List Int),
    (∀ v ∈ xs, v.length = x.length) →
    (xs.foldl vadd x).sum = x.sum + (xs.map List.sum).sum := by
  intro xs
  induction xs with
  | nil => intro x _; simp
  | cons y ys ih =>
    intro x h
    rw [List.foldl_cons]
    have hxy : (vadd x y).length = x.length :=
      vadd_length (h y (List.mem_cons_self _ _)).symm
    rw [ih (vadd x y) (fun v hv => (h v (List.mem_cons_of_mem _ hv)).trans hxy.symm)]
    rw [vadd_sum x y (h y (List.mem_cons_self _ _)).symm]
    simp only [List.map_cons, List.sum_cons]
    ring

theorem sum_entries_eq_count {n : Nat} {j : Nat} (hj : j < n) :
    ∀ (c : List (List Int)), (∀ v ∈ c, ∃ i, i < n ∧ v = idRow n i) →
      (c.map (entry j)).sum = (c.count (idRow n j) : Int) := by
  intro c
  induction c with
  | nil => simp
  | cons v cs ih =>
    intro h
    obtain ⟨i, hi, rfl⟩ := h _ (List.mem_cons_self _ _)
    rw [List.map_cons, List.sum_cons, ih (fun w hw => h w (List.mem_cons_of_mem _ hw))]
    rw [List.count_cons, entry_idRow hj]
    by_cases hji : j = i
    · subst hji
      rw [if_pos rfl]
      simp only [beq_self_eq_true, if_true]
      push_cast
      ring
    · rw [if_neg hji]
      have hne : ¬ (idRow n i == idRow n j) = true := by
        simp only [beq_iff_eq]
        exact fun he => hji (idRow_inj hi hj he).symm
      simp [hne]

theorem sum_map_sum_ones : ∀ (c : List (List Int)), (∀ v ∈ c, v.sum = 1) →
    (c.map List.sum).sum = (c.length : Int) := by
  intro c
  induction c with
  | nil => simp
  | cons v cs ih =>
    intro h
    rw [List.map_cons, List.sum_cons, h v (List.mem_cons_self _ _),
      ih (fun w hw => h w (List.mem_cons_of_mem _ hw))]
    simp only [List.length_cons]
    push_cast
    ring

/-- Soundness of the per-army enumeration: every produced element is either
the scalar `0` (exactly when the army size is `0`) or a vector of length
`n` with non-negative entries summing to the army size. -/
theorem armyOrders_sound (a n : Nat) :
    ∀ p ∈ armyOrders a n,
      (a = 0 ∧ p = PyVal.int 0) ∨
      ∃ v, p = PyVal.vec v ∧ v.length = n ∧ (∀ x ∈ v, 0 ≤ x) ∧ v.sum = (a : Int) := by
  intro p hp
  obtain ⟨c, hc, rfl⟩ := List.mem_map.mp hp
  obtain ⟨hclen, hcmem⟩ := cwr_mem _ _ _ hc
  have hcrows : ∀ v ∈ c, ∃ i, i < n ∧ v = idRow n i :=
    fun v hv => mem_identityRows.mp (hcmem v hv)
  have hclens : ∀ v ∈ c, v.length = n := by
    intro v hv
    obtain ⟨i, _, rfl⟩ := hcrows v hv
    exact idRow_length n i
  cases c with
  | nil => exact Or.inl ⟨hclen.symm, rfl⟩
  | cons hd tl =>
    right
    have hhd : hd.length = n := hclens hd (List.mem_cons_self _ _)
    have htl : ∀ v ∈ tl, v.length = hd.length :=
      fun v hv => (hclens v (List.mem_cons_of_mem _ hv)).trans hhd.symm
    refine ⟨tl.foldl vadd hd, rfl, ?_, ?_, ?_⟩
    · rw [foldl_vadd_length tl hd htl, hhd]
    · intro x hx
      obtain ⟨k, hk, rfl⟩ := List.mem_iff_getElem.mp hx
      have hkn : k < n := by
        rwa [foldl_vadd_length tl hd htl, hhd] at hk
      have hx_entry : (tl.foldl vadd hd)[k] = entry k (tl.foldl vadd hd) :=
        (List.getD_eq_getElem _ _ hk).symm
      rw [hx_entry, foldl_vadd_entry k tl hd htl]
      have hsum : entry k hd + (tl.map (entry k)).sum = ((hd :: tl).map (entry k)).sum := by
        simp
      rw [hsum, sum_entries_eq_count hkn (hd :: tl) hcrows]
      exact Int.natCast_nonneg _
    · have hsums : ∀ v ∈ hd :: tl, v.sum = 1 := by
        intro v hv
        obtain ⟨i, hi, rfl⟩ := hcrows v hv
        exact idRow_sum hi
      rw [foldl_vadd_sum tl hd htl]
      have hcons : hd.sum + (tl.map List.sum).sum = ((hd :: tl).map List.sum).sum := by
        simp
      rw [hcons, sum_map_sum_ones (hd :: tl) hsums, hclen]

/-- C1 counterexample: at `army_size = 0` (here with two strongholds) the
single produced element is the scalar `0`, not a vector of length
`n_strongholds` — the claim's shape clause fails as stated for
`army_size = 0`. -/
theorem armyOrders_zero_shape_fails :
    ¬ ∀ p ∈ armyOrders 0 2, ∃ v, p = PyVal.vec v ∧ v.length = 2 ∧
        (∀ x ∈ v, 0 ≤ x) ∧ v.sum = 0 := by
  intro h
  obtain ⟨v, hv, _⟩ := h (PyVal.int 0) (List.mem_singleton.mpr rfl)
  exact PyVal.noConfusion hv

/-- C1 amended: for `n_strongholds ≥ 1` the enumeration always has exactly
`C(army_size + n_strongholds - 1, n_strongholds - 1)` elements, and for
`army_size ≥ 1` every element is a vector of length `n_strongholds` with
non-negative entries summing to `army_size` (at `army_size = 0` the single
element is the integer scalar `0` instead). -/
theorem armyOrders_count_and_shape (a n : Nat) (hn : 1 ≤ n) :
    (armyOrders a n).length = Nat.choose (a + n - 1) (n - 1) ∧
    (1 ≤ a → ∀ p ∈ armyOrders a n,
      ∃ v, p = PyVal.vec v ∧ v.length = n ∧ (∀ x ∈ v, 0 ≤ x) ∧ v.sum = (a : Int)) := by
  constructor
  · rw [armyOrders, List.length_map, cwr_length, identityRows_length]
    obtain ⟨m, rfl⟩ : ∃ m, n = m + 1 := ⟨n - 1, by omega⟩
    rw [Nat.multichoose_eq]
    rw [show m + 1 + a - 1 = a + m from by omega, show a + (m + 1) - 1 = a + m from by omega,
      show m + 1 - 1 = m from by omega]
    have hsymm := Nat.choose_symm (show m ≤ a + m from by omega)
    rw [show a + m - m = a from by omega] at hsymm
    exact hsymm
  · intro ha p hp
    rcases armyOrders_sound a n p hp with ⟨h0, _⟩ | h
    · omega
    · exact h

theorem armyOrders_count_and_shape_witness :
    1 ≤ 2 ∧
    ((armyOrders 2 2).length = Nat.choose (2 + 2 - 1) (2 - 1) ∧
     (1 ≤ 2 → ∀ p ∈ armyOrders 2 2,
       ∃ v, p = PyVal.vec v ∧ v.length = 2 ∧ (∀ x ∈ v, 0 ≤ x) ∧ v.sum = (2 : Int))) :=
  ⟨by decide, armyOrders_count_and_shape 2 2 (by decide)⟩

theorem listInt_count_eq (a : List Int) (l : List (List Int)) :
    @List.count _ instBEqOfDecidableEq a l = l.count a := by
  induction l with
  | nil => rfl
  | cons x xs ih =>
    simp only [List.count_cons, ih]
    by_cases h : a = x <;> simp [beq_iff_eq, h]

theorem identityRows_nodup (n : Nat) : (identityRows n).Nodup := by
  refine List.Nodup.map_on ?_ (List.nodup_range n)
  intro i hi j hj hij
  exact idRow_inj (List.mem_range.mp hi) (List.mem_range.mp hj) hij

/-- C8: the enumeration never contains two equal elements — the produced
count vectors are pairwise distinct. -/
theorem armyOrders_nodup (a n : Nat) (_hn : 1 ≤ n) : (armyOrders a n).Nodup := by
  cases a with
  | zero => exact List.nodup_singleton _
  | succ a' =>
    rw [armyOrders]
    have hnd : (identityRows n).Nodup := identityRows_nodup n
    have hms := cwr_map_multiset_nodup (identityRows n) hnd (a' + 1)
    refine List.Nodup.map_on ?_ (cwr_nodup hnd (a' + 1))
    intro c1 h1 c2 h2 heq
    refine List.inj_on_of_nodup_map hms h1 h2 ?_
    -- The two combinations are permutations of each other: their tallies
    -- coincide, hence so do their element counts.
    obtain ⟨hlen1, hmem1⟩ := cwr_mem _ _ _ h1
    obtain ⟨hlen2, hmem2⟩ := cwr_mem _ _ _ h2
    have hrows1 : ∀ v ∈ c1, ∃ i, i < n ∧ v = idRow n i :=
      fun v hv => mem_identityRows.mp (hmem1 v hv)
    have hrows2 : ∀ v ∈ c2, ∃ i, i < n ∧ v = idRow n i :=
      fun v hv => mem_identityRows.mp (hmem2 v hv)
    have hcount : ∀ j, j < n → c1.count (idRow n j) = c2.count (idRow n j) := by
      intro j hj
      have e1 : (c1.map (entry j)).sum = (c1.count (idRow n j) : Int) :=
        sum_entries_eq_count hj c1 hrows1
      have e2 : (c2.map (entry j)).sum = (c2.count (idRow n j) : Int) :=
        sum_entries_eq_count hj c2 hrows2
      have hmapeq : (c1.map (entry j)).sum = (c2.map (entry j)).sum := by
        cases c1 with
        | nil => simp at hlen1
        | cons hd1 tl1 =>
          cases c2 with
          | nil => simp at hlen2
          | cons hd2 tl2 =>
            have hw : tl1.foldl vadd hd1 = tl2.foldl vadd hd2 :=
              PyVal.vec.inj heq
            have hl1 : ∀ v ∈ tl1, v.length = hd1.length := by
              intro v hv
              obtain ⟨i, _, rfl⟩ := hrows1 v (List.mem_cons_of_mem _ hv)
              obtain ⟨i1, _, rfl⟩ := hrows1 hd1 (List.mem_cons_self _ _)
              rw [idRow_length, idRow_length]
            have hl2 : ∀ v ∈ tl2, v.length = hd2.length := by
              intro v hv
              obtain ⟨i, _, rfl⟩ := hrows2 v (List.mem_cons_of_mem _ hv)
              obtain ⟨i2, _, rfl⟩ := hrows2 hd2 (List.mem_cons_self _ _)
              rw [idRow_length, idRow_length]
            have g1 : entry j (tl1.foldl vadd hd1) =
                entry j hd1 + (tl1.map (entry j)).sum := foldl_vadd_entry j tl1 hd1 hl1
            have g2 : entry j (tl2.foldl vadd hd2) =
                entry j hd2 + (tl2.map (entry j)).sum := foldl_vadd_entry j tl2 hd2 hl2
            have : entry j hd1 + (tl1.map (entry j)).sum =
                entry j hd2 + (tl2.map (entry j)).sum := by
              rw [← g1, ← g2, hw]
            simpa using this
      have : (c1.count (idRow n j) : Int) = (c2.count (idRow n j) : Int) := by
        rw [← e1, ← e2, hmapeq]
      exact_mod_cast this
    refine Multiset.coe_eq_coe.mpr (List.perm_iff_count.mpr ?_)
    intro x
    rw [listInt_count_eq x c1, listInt_count_eq x c2]
    by_cases hx1 : x ∈ c1
    · obtain ⟨i, hi, rfl⟩ := hrows1 x hx1
      exact hcount i hi
    · by_cases hx2 : x ∈ c2
      · obtain ⟨i, hi, rfl⟩ := hrows2 x hx2
        exact hcount i hi
      · rw [List.count_eq_zero_of_not_mem hx1, List.count_eq_zero_of_not_mem hx2]

theorem armyOrders_nodup_witness :
    1 ≤ 2 ∧ (armyOrders 3 2).Nodup :=
  ⟨by decide, armyOrders_nodup 3 2 (by decide)⟩

theorem fit_game_matrix_spec_witness :
    ((⟨[1, 1], 1, some [[PyVal.vec [1]], [PyVal.vec [1]]], none⟩ :
        CommanderGame).fit_game_matrix =
      .ok ⟨[1, 1], 1, some [[PyVal.vec [1]], [PyVal.vec [1]]], some [[0]]⟩) ∧
    (∃ M, (⟨[1, 1], 1, some [[PyVal.vec [1]], [PyVal.vec [1]]], some [[0]]⟩ :
        CommanderGame).game_matrix = some M ∧
      M.length = [PyVal.vec [1]].length ∧
      (∀ row ∈ M, row.length = [PyVal.vec [1]].length) ∧
      (∀ r c row v, M.get? r = some row → row.get? c = some v →
        ∃ x y, [PyVal.vec [1]].get? r = some x ∧ [PyVal.vec [1]].get? c = some y ∧
          score_battles 1 x y = .ok v)) :=
  ⟨rfl,
    fit_game_matrix_spec
      ⟨[1, 1], 1, some [[PyVal.vec [1]], [PyVal.vec [1]]], none⟩
      ⟨[1, 1], 1, some [[PyVal.vec [1]], [PyVal.vec [1]]], some [[0]]⟩
      [[PyVal.vec [1]], [PyVal.vec [1]]] [PyVal.vec [1]]
      [PyVal.vec [1]] rfl rfl rfl rfl⟩

/-! ### Bounds on the matrix values -/

theorem scoreVecs_le : ∀ (x y : List Int), (∀ u ∈ x, 0 ≤ u) → (∀ u ∈ y, 0 ≤ u) →
    scoreVecs x y ≤ y.sum + (y.length : Int) := by
  intro x
  induction x with
  | nil =>
    intro y _ hy
    have h0 : scoreVecs [] y = 0 := by cases y <;> rfl
    have h1 : 0 ≤ y.sum := List.sum_nonneg hy
    have h2 : (0 : Int) ≤ (y.length : Int) := Int.natCast_nonneg _
    omega
  | cons u xs ih =>
    intro y hx hy
    cases y with
    | nil => simp [scoreVecs]
    | cons w ys =>
      simp only [scoreVecs, List.sum_cons, List.length_cons]
      have hrec := ih ys (fun z hz => hx z (List.mem_cons_of_mem _ hz))
        (fun z hz => hy z (List.mem_cons_of_mem _ hz))
      have hw : 0 ≤ w := hy w (List.mem_cons_self _ _)
      have hu : 0 ≤ u := hx u (List.mem_cons_self _ _)
      push_cast
      split_ifs <;> omega

/-- C7: every value of a game matrix built by the
`fit_army_orders` / `fit_game_matrix` pipeline is bounded in absolute value
by the larger army size plus the number of strongholds. -/
theorem game_matrix_values_bounded (a1 a2 n : Nat) (g' : CommanderGame)
    (M : List (List Int))
    (hfit : ((⟨[a1, a2], n, none, none⟩ :
        CommanderGame).fit_army_orders).fit_game_matrix = .ok g')
    (hM : g'.game_matrix = some M) :
    ∀ row ∈ M, ∀ v ∈ row, |v| ≤ ((max a1 a2 + n : Nat) : Int) := by
  have horders : ((⟨[a1, a2], n, none, none⟩ :
      CommanderGame).fit_army_orders).armies_orders =
      some [armyOrders a1 n, armyOrders a2 n] := rfl
  obtain ⟨M', hgm, -, -, hcells⟩ :=
    fit_game_matrix_ok_cells _ _ [armyOrders a1 n, armyOrders a2 n]
      (armyOrders a1 n) (armyOrders a2 n) horders rfl rfl hfit
  obtain rfl : M' = M := Option.some.inj (hgm.symm.trans hM)
  intro row hrow v hv
  obtain ⟨r, hr⟩ := List.get?_of_mem hrow
  obtain ⟨c, hc⟩ := List.get?_of_mem hv
  obtain ⟨x, y, hx, hy, hsc⟩ := hcells r c row v hr hc
  have hxin : x ∈ armyOrders a1 n := List.get?_mem hx
  have hyin : y ∈ armyOrders a2 n := List.get?_mem hy
  have hsc' : score_battles n x y = .ok v := hsc
  rcases armyOrders_sound a1 n x hxin with ⟨-, rfl⟩ | ⟨vx, rfl, hlx, hnnx, hsx⟩
  · simp [score_battles] at hsc'
  rcases armyOrders_sound a2 n y hyin with ⟨-, rfl⟩ | ⟨vy, rfl, hly, hnny, hsy⟩
  · simp [score_battles] at hsc'
  rw [score_battles] at hsc'
  split at hsc'
  case isFalse => exact absurd hsc' (by simp)
  case isTrue hcond =>
    obtain rfl : scoreVecs vx vy = v := Except.ok.inj hsc'
    have hle1 := scoreVecs_le vx vy hnnx hnny
    have hle2 := scoreVecs_le vy vx hnny hnnx
    have hswap := scoreVecs_swap vx vy
    rw [hsy, hly] at hle1
    rw [hsx, hlx] at hle2
    rw [show ((max a1 a2 + n : Nat) : Int) = ((max a1 a2 : Nat) : Int) + (n : Int) from
      by push_cast [Nat.cast_max]; ring]
    have hm1 : (a1 : Int) ≤ ((max a1 a2 : Nat) : Int) := by
      exact_mod_cast Nat.le_max_left a1 a2
    have hm2 : (a2 : Int) ≤ ((max a1 a2 : Nat) : Int) := by
      exact_mod_cast Nat.le_max_right a1 a2
    rw [abs_le]
    omega

theorem game_matrix_values_bounded_witness :
    (((⟨[1, 1], 1, none, none⟩ :
        CommanderGame).fit_army_orders).fit_game_matrix =
      .ok ⟨[1, 1], 1, some [[PyVal.vec [1]], [PyVal.vec [1]]], some [[0]]⟩) ∧
    ((⟨[1, 1], 1, some [[PyVal.vec [1]], [PyVal.vec [1]]], some [[0]]⟩ :
        CommanderGame).game_matrix = some [[0]]) ∧
    (∀ row ∈ ([[0]] : List (List Int)), ∀ v ∈ row,
      |v| ≤ ((max 1 1 + 1 : Nat) : Int)) :=
  ⟨rfl, rfl, game_matrix_values_bounded 1 1 1 _ [[0]] rfl rfl⟩

/-! ### The pattern aggregator -/

theorem countersOf_map_vec : ∀ (l : List (List Int)),
    countersOf (l.map PyVal.vec) = .ok (l.map patternOf) := by
  intro l
  induction l with
  | nil => rfl
  | cons v vs ih =>
    simp only [List.map_cons, countersOf, pyCounter, ih]

theorem uniqueOrdersAux_map_vec : ∀ (l acc : List (List Int)),
    uniqueOrdersAux (acc.map PyVal.vec) (l.map PyVal.vec) =
      .ok ((uniqueVecsAux acc l).map PyVal.vec) := by
  intro l
  induction l with
  | nil => intro acc; rfl
  | cons v vs ih =>
    intro acc
    simp only [List.map_cons, uniqueOrdersAux, countersOf_map_vec acc, pyCounter,
      uniqueVecsAux]
    by_cases hmem : patternOf v ∈ acc.map patternOf
    · rw [if_pos hmem, if_pos hmem]
      exact ih acc
    · rw [if_neg hmem, if_neg hmem]
      have := ih (acc ++ [v])
      rwa [List.map_append] at this

theorem uniqueVecsAux_eq_spec : ∀ (l acc : List (List Int)),
    uniqueVecsAux acc l =
      acc ++ specUniquePatterns
        (l.filter (fun u => decide (patternOf u ∉ acc.map patternOf))) := by
  intro l
  induction l with
  | nil =>
    intro acc
    simp only [uniqueVecsAux, List.filter_nil, specUniquePatterns, List.append_nil]
  | cons v vs ih =>
    intro acc
    simp only [uniqueVecsAux, List.filter_cons]
    by_cases hmem : patternOf v ∈ acc.map patternOf
    · rw [if_pos hmem, if_neg (by simp [hmem])]
      exact ih acc
    · rw [if_neg hmem, if_pos (by simp [hmem])]
      rw [ih (acc ++ [v])]
      rw [specUniquePatterns]
      rw [List.append_assoc, List.singleton_append]
      congr 2
      rw [List.filter_filter]
      refine congrArg specUniquePatterns (List.filter_congr ?_)
      intro u _
      by_cases h1 : patternOf u = patternOf v <;>
        by_cases h2 : patternOf u ∈ List.map patternOf acc <;>
          simp [h1, h2, List.map_append]

theorem specUniquePatterns_sublist : ∀ (l : List (List Int)),
    List.Sublist (specUniquePatterns l) l
  | [] => by
      rw [specUniquePatterns]
  | v :: vs => by
      rw [specUniquePatterns]
      exact List.Sublist.cons₂ v
        ((specUniquePatterns_sublist _).trans (List.filter_sublist vs))
termination_by l => l.length
decreasing_by
  simp only [List.length_cons]
  exact Nat.lt_succ_of_le (List.length_filter_le _ _)

theorem specUniquePatterns_keys_nodup : ∀ (l : List (List Int)),
    ((specUniquePatterns l).map patternOf).Nodup
  | [] => by
      rw [specUniquePatterns]
      simp
  | v :: vs => by
      rw [specUniquePatterns]
      simp only [List.map_cons, List.nodup_cons]
      refine ⟨?_, specUniquePatterns_keys_nodup _⟩
      intro hmem
      obtain ⟨u, hu, he⟩ := List.mem_map.mp hmem
      have hu' := (specUniquePatterns_sublist _).subset hu
      have hne := (List.mem_filter.mp hu').2
      exact (of_decide_eq_true hne) he
termination_by l => l.length
decreasing_by
  simp only [List.length_cons]
  exact Nat.lt_succ_of_le (List.length_filter_le _ _)

theorem specUniquePatterns_keys_complete : ∀ (l : List (List Int)), ∀ v ∈ l,
    patternOf v ∈ (specUniquePatterns l).map patternOf
  | [] => by simp
  | w :: ws => by
      intro v hv
      rw [specUniquePatterns]
      simp only [List.map_cons]
      rcases List.mem_cons.mp hv with rfl | hv'
      · exact List.mem_cons_self _ _
      · by_cases hpv : patternOf v = patternOf w
        · rw [hpv]
          exact List.mem_cons_self _ _
        · refine List.mem_cons_of_mem _ (specUniquePatterns_keys_complete _ v ?_)
          exact List.mem_filter.mpr ⟨hv', decide_eq_true hpv⟩
termination_by l => l.length
decreasing_by
  simp only [List.length_cons]
  exact Nat.lt_succ_of_le (List.length_filter_le _ _)

/-- C9: on an allocation list of plain vectors, the default pattern
deduplication of `show_submatrixes` succeeds and returns exactly the
allocations whose unit-count multiset has not occurred earlier: one
representative per distinct pattern, in first-occurrence order (a sublist
of the input), with no two entries of equal pattern, and with every input
pattern represented. -/
theorem uniqueOrders_patterns_spec (l : List (List Int)) :
    uniqueOrders (l.map PyVal.vec) = .ok ((specUniquePatterns l).map PyVal.vec) ∧
    ((specUniquePatterns l).map patternOf).Nodup ∧
    (∀ v ∈ l, patternOf v ∈ (specUniquePatterns l).map patternOf) ∧
    List.Sublist (specUniquePatterns l) l := by
  refine ⟨?_, specUniquePatterns_keys_nodup l, specUniquePatterns_keys_complete l,
    specUniquePatterns_sublist l⟩
  have h := uniqueOrdersAux_map_vec l []
  have hvecs : uniqueVecsAux [] l = specUniquePatterns l := by
    rw [uniqueVecsAux_eq_spec l []]
    rw [List.nil_append]
    congr 1
    refine List.filter_eq_self.mpr ?_
    intro u _
    simp
  rw [uniqueOrders, ← hvecs]
  exact h

theorem uniqueOrders_patterns_spec_witness :
    uniqueOrders (([[2, 1, 0], [0, 2, 1], [1, 1, 1]] : List (List Int)).map PyVal.vec) =
      .ok ((specUniquePatterns [[2, 1, 0], [0, 2, 1], [1, 1, 1]]).map PyVal.vec) ∧
    ((specUniquePatterns [[2, 1, 0], [0, 2, 1], [1, 1, 1]]).map patternOf).Nodup ∧
    (∀ v ∈ ([[2, 1, 0], [0, 2, 1], [1, 1, 1]] : List (List Int)),
      patternOf v ∈ (specUniquePatterns [[2, 1, 0], [0, 2, 1], [1, 1, 1]]).map patternOf) ∧
    List.Sublist (specUniquePatterns [[2, 1, 0], [0, 2, 1], [1, 1, 1]])
      [[2, 1, 0], [0, 2, 1], [1, 1, 1]] :=
  uniqueOrders_patterns_spec [[2, 1, 0], [0, 2, 1], [1, 1, 1]]

end CommandersAndStrongholds
